import Mathlib

/-!
Verification of the advent_of_code_2024 repository against its
natural-language specification.  Each Rust function relevant to the
frozen claims is shallowly embedded as an executable Lean definition;
u64/u32/u16 arithmetic is modelled on Nat with explicit `% 2 ^ w`
wrapping where the source performs unchecked machine arithmetic, and
the checked_* operations return Option exactly as in the source.
-/

set_option maxHeartbeats 1000000

namespace Day7

/-- u64 overflow bound: values are 0 ≤ v < 2^64. -/
def U64_LIMIT : Nat := 2 ^ 64

/-- Operators of src/aoc-day-7/src/lib.rs (enum JungleOperator). -/
inductive JungleOperator
  | Sum
  | Product
  | StringJoin
deriving DecidableEq

/-- u64::checked_add: none exactly when the mathematical sum overflows u64. -/
def checked_add (a b : Nat) : Option Nat :=
  if a + b < U64_LIMIT then some (a + b) else none

/-- u64::checked_mul: none exactly when the mathematical product overflows u64. -/
def checked_mul (a b : Nat) : Option Nat :=
  if a * b < U64_LIMIT then some (a * b) else none

/-- 10u64.checked_pow k: none exactly when 10^k overflows u64. -/
def checked_pow10 (k : Nat) : Option Nat :=
  if 10 ^ k < U64_LIMIT then some (10 ^ k) else none

/-- Number of decimal digits of n, as right_load.to_string().len() computes it. -/
def digitCount (n : Nat) : Nat :=
  if _h : n < 10 then 1 else 1 + digitCount (n / 10)
decreasing_by exact Nat.div_lt_self (by omega) (by omega)

/-- JungleOperator::apply from src/aoc-day-7/src/lib.rs lines 22-43. -/
def JungleOperator.apply : JungleOperator → Nat → Nat → Option Nat
  | .Sum, a, b => checked_add a b
  | .Product, a, b => checked_mul a b
  | .StringJoin, a, b =>
    if b < 10 then (checked_mul a 10).bind fun t => checked_add t b
    else if b < 100 then (checked_mul a 100).bind fun t => checked_add t b
    else (checked_pow10 (digitCount b)).bind fun s =>
      (checked_mul a s).bind fun t => checked_add t b

/-- BridgeEquation from src/aoc-day-7/src/lib.rs. -/
structure BridgeEquation where
  target_stress : Nat
  load_factors : List Nat
deriving DecidableEq

/-- Operator selected for slot i by a combination index, as decoded inside
the parallel search of is_calibratable (base 3 with string join, base 2
without; Rust uses (combo >> i) & 1 which equals combo / 2^i % 2). -/
def opAt (allow : Bool) (combo i : Nat) : JungleOperator :=
  if allow then
    match combo / 3 ^ i % 3 with
    | 0 => .Sum
    | 1 => .Product
    | _ => .StringJoin
  else if combo / 2 ^ i % 2 = 0 then .Sum else .Product

/-- The inner loop of the parallel search: starting from cur, apply the
operator of each successive slot to the next load factor; none models the
early false return when a checked operation overflows. -/
def comboLoop (allow : Bool) (combo : Nat) : Nat → Nat → List Nat → Option Nat
  | _, cur, [] => some cur
  | i, cur, f :: fs =>
    match (opAt allow combo i).apply cur f with
    | some next => comboLoop allow combo (i + 1) next fs
    | none => none

/-- Number of operator combinations tried by the generic branch. -/
def possibleCombinations (eq : BridgeEquation) (allow : Bool) : Nat :=
  (if allow then 3 else 2) ^ (eq.load_factors.length - 1)

/-- The per-index predicate each rayon worker evaluates in the generic
branch of is_calibratable. -/
def comboHits (eq : BridgeEquation) (allow : Bool) (combo : Nat) : Bool :=
  match eq.load_factors with
  | [] => false
  | a :: rest =>
    match comboLoop allow combo 0 a rest with
    | some v => v == eq.target_stress
    | none => false

/-- The three operators in the order the length-3 fallback loop tries them. -/
def allOps : List JungleOperator := [.Sum, .Product, .StringJoin]

/-- BridgeEquation::is_calibratable from src/aoc-day-7/src/lib.rs lines
101-193, fast paths included.  The unchecked u64 arithmetic of the length-2
and length-3 fast paths is modelled with explicit wrapping (release-build
semantics). -/
def is_calibratable (eq : BridgeEquation) (allow_string_join : Bool) : Bool :=
  match eq.load_factors with
  | [] => false
  | [_] => false
  | [a, b] =>
    if (a + b) % U64_LIMIT == eq.target_stress
        || (a * b) % U64_LIMIT == eq.target_stress then true
    else allow_string_join && (JungleOperator.StringJoin.apply a b == some eq.target_stress)
  | [a, b, c] =>
    if (a + b * c % U64_LIMIT) % U64_LIMIT == eq.target_stress
        || ((a * b) % U64_LIMIT + c) % U64_LIMIT == eq.target_stress then true
    else if !allow_string_join then false
    else allOps.any fun op1 =>
      match op1.apply a b with
      | some ab => allOps.any fun op2 => op2.apply ab c == some eq.target_stress
      | none => false
  | a :: rest =>
    (List.range (possibleCombinations eq allow_string_join)).any fun combo =>
      match comboLoop allow_string_join combo 0 a rest with
      | some v => v == eq.target_stress
      | none => false

/-- Boolean guard: with allow_string_join false only Sum and Product may be
chosen, with it true all three operators are available. -/
def opAllowed (allow : Bool) : JungleOperator → Bool
  | .StringJoin => allow
  | _ => true

/-- Strict left-to-right evaluation of one operator per adjacent operand
pair, with the checked u64 semantics of JungleOperator::apply. -/
def evalOps : Nat → List JungleOperator → List Nat → Option Nat
  | cur, [], [] => some cur
  | cur, op :: ops, f :: fs =>
    match op.apply cur f with
    | some next => evalOps next ops fs
    | none => none
  | _, _, _ => none

/-- The specified meaning of calibratability: some choice of one allowed
operator per adjacent pair evaluates left-to-right to the target. -/
def CalibratableSpec (eq : BridgeEquation) (allow : Bool) : Prop :=
  ∃ ops : List JungleOperator,
    ops.length = eq.load_factors.length - 1 ∧
    (∀ op ∈ ops, opAllowed allow op = true) ∧
    match eq.load_factors with
    | [] => False
    | a :: rest => evalOps a ops rest = some eq.target_stress

/-- Splitting a character list at separators chosen by a predicate;
instantiated at (== ch) it models str::split(ch) and at isWhitespace,
after discarding empty groups, str::split_whitespace. -/
def splitOnPred (p : Char → Bool) : List Char → List (List Char)
  | [] => [[]]
  | c :: cs =>
    if p c then [] :: splitOnPred p cs
    else
      match splitOnPred p cs with
      | g :: gs => (c :: g) :: gs
      | [] => [[c]]

/-- str::trim on a character list. -/
def trimChars (l : List Char) : List Char :=
  ((l.dropWhile Char.isWhitespace).reverse.dropWhile Char.isWhitespace).reverse

/-- str::parse::<u64>: an optional leading plus sign, then at least one
ASCII digit, and the value must fit in u64. -/
def parseU64 (l : List Char) : Option Nat :=
  let digits := if l.head? = some '+' then l.tail else l
  if digits.isEmpty then none
  else if digits.all Char.isDigit then
    let v := digits.foldl (fun acc c => acc * 10 + (c.toNat - 48)) 0
    if v < U64_LIMIT then some v else none
  else none

/-- BridgeEquation::from_str: split on one colon, parse the trimmed target,
parse every whitespace-separated load factor. -/
def parseEquation (line : List Char) : Option BridgeEquation :=
  match splitOnPred (· == ':') line with
  | [tStr, fStr] =>
    match parseU64 (trimChars tStr) with
    | none => none
    | some t =>
      let words := (splitOnPred Char.isWhitespace fStr).filter (fun w => !w.isEmpty)
      match words.mapM parseU64 with
      | some fs => some ⟨t, fs⟩
      | none => none
  | _ => none

/-- BridgeCalibrator::new: drop blank lines, parse each remaining line. -/
def calibratorNew (lines : List (List Char)) : Option (List BridgeEquation) :=
  (lines.filter (fun l => !(trimChars l).isEmpty)).mapM parseEquation

/-- Iterator::sum over u64 modelled with wrapping accumulation. -/
def wrapSum (l : List Nat) : Nat :=
  l.foldl (fun acc t => (acc + t) % U64_LIMIT) 0

/-- BridgeCalibrator::calculate_basic_stress. -/
def calculate_basic_stress (eqs : List BridgeEquation) : Nat :=
  wrapSum ((eqs.filter (fun eq => is_calibratable eq false)).map (·.target_stress))

/-- BridgeCalibrator::calculate_advanced_stress. -/
def calculate_advanced_stress (eqs : List BridgeEquation) : Nat :=
  wrapSum ((eqs.filter (fun eq => is_calibratable eq true)).map (·.target_stress))

/-- The nine-line sample input of the day-7 structural_tests. -/
def sampleSpecs : List (List Char) :=
  ["190: 10 19".toList,
   "3267: 81 40 27".toList,
   "83: 17 5".toList,
   "156: 15 6".toList,
   "7290: 6 8 6 15".toList,
   "161011: 16 10 13".toList,
   "192: 17 8 14".toList,
   "21037: 9 7 18 13".toList,
   "292: 11 6 16 20".toList]

end Day7

namespace Day3

/-- MAX_MEMORY_VALUE from src/aoc-day-3/src/memory/mod.rs. -/
def MAX_MEMORY_VALUE : Nat := 999

/-- u32 overflow bound. -/
def U32_LIMIT : Nat := 2 ^ 32

/-- u16 overflow bound for MemoryNumber accumulation. -/
def U16_LIMIT : Nat := 2 ^ 16

/-- ParserState from src/aoc-day-3/src/parser/state.rs; the MemoryNumber
payloads are u16 values modelled as Nat. -/
inductive ParserState
  | Initial
  | M
  | MU
  | Mul
  | MulLParen
  | ParsingX (x : Nat)
  | AfterComma (x : Nat)
  | ParsingY (x : Nat) (y : Nat)
  | D
  | DO
  | Don
  | DontQuote
  | Dont
  | DontLparen
  | DoLparen
deriving DecidableEq

/-- MemoryParser from src/aoc-day-3/src/parser/scanner.rs. -/
structure MemoryParser where
  checksum : Nat
  state : ParserState
  mul_enabled : Bool
deriving DecidableEq

/-- MemoryParser::default: checksum 0, Initial state, multiplication enabled. -/
def MemoryParser.start : MemoryParser := ⟨0, .Initial, true⟩

/-- MemoryDigit::try_from: an ASCII digit yields its value, otherwise Err. -/
def charDigit (c : Char) : Option Nat :=
  if c.isDigit then some (c.toNat - 48) else none

/-- MemoryNumber += MemoryDigit: u16FromInt arithmetic new = n * 10 + d. -/
def pushDigit (n d : Nat) : Nat := (n * 10 + d) % U16_LIMIT

/-- The apostrophe character expected between Don and DontQuote. -/
def quoteChar : Char := Char.ofNat 39

/-- MemoryParser::process_char from src/aoc-day-3/src/parser/scanner.rs
lines 26-157, a literal transcription of the state machine; the checksum
addition wraps at u32 as the += on a u32 does in a release build. -/
def process_char (p : MemoryParser) (c : Char) : MemoryParser :=
  match p.state with
  | .Initial =>
    if c = 'm' then { p with state := .M }
    else if c = 'd' then { p with state := .D }
    else p
  | .M => if c = 'u' then { p with state := .MU } else { p with state := .Initial }
  | .MU => if c = 'l' then { p with state := .Mul } else { p with state := .Initial }
  | .Mul => if c = '(' then { p with state := .MulLParen } else { p with state := .Initial }
  | .MulLParen =>
    match charDigit c with
    | some d => { p with state := .ParsingX d }
    | none => { p with state := .Initial }
  | .ParsingX x =>
    match charDigit c with
    | some d =>
      let nx := pushDigit x d
      if MAX_MEMORY_VALUE < nx then { p with state := .Initial }
      else { p with state := .ParsingX nx }
    | none =>
      if c = ',' then { p with state := .AfterComma x }
      else { p with state := .Initial }
  | .AfterComma x =>
    match charDigit c with
    | some d => { p with state := .ParsingY x d }
    | none => { p with state := .Initial }
  | .ParsingY x y =>
    match charDigit c with
    | some d =>
      let ny := pushDigit y d
      if MAX_MEMORY_VALUE < ny then { p with state := .Initial }
      else { p with state := .ParsingY x ny }
    | none =>
      if c = ')' then
        if p.mul_enabled then
          { p with checksum := (p.checksum + x * y) % U32_LIMIT, state := .Initial }
        else { p with state := .Initial }
      else { p with state := .Initial }
  | .D => if c = 'o' then { p with state := .DO } else { p with state := .Initial }
  | .DO =>
    if c = '(' then { p with state := .DoLparen }
    else if c = 'n' then { p with state := .Don }
    else { p with state := .Initial }
  | .DoLparen =>
    if c = ')' then { p with mul_enabled := true, state := .Initial }
    else { p with state := .Initial }
  | .Don =>
    if c = quoteChar then { p with state := .DontQuote }
    else { p with state := .Initial }
  | .DontQuote => if c = 't' then { p with state := .Dont } else { p with state := .Initial }
  | .Dont => if c = '(' then { p with state := .DontLparen } else { p with state := .Initial }
  | .DontLparen =>
    if c = ')' then { p with mul_enabled := false, state := .Initial }
    else { p with state := .Initial }

/-- Feeding a character sequence through the parser from the default state. -/
def runParser (input : List Char) : MemoryParser :=
  input.foldl process_char MemoryParser.start

/-- First day-3 sample input (test_shopkeeper_example). -/
def sample1 : List Char :=
  "xmul(2,4)%&mul[3,7]!@^do_not_mul(5,5)+mul(32,64]then(mul(11,8)mul(8,5))".toList

/-- Second day-3 sample input (test_conditional_memory); the apostrophe of
the don t() token is spliced in as quoteChar. -/
def sample2 : List Char :=
  "xmul(2,4)&mul[3,7]!^don".toList ++ [quoteChar] ++
    "t()_mul(5,5)+mul(32,64](mul(11,8)do()?mul(8,5))".toList

/-- Operand bound invariant on parser states: every operand accumulated in
a surviving state is at most MAX_MEMORY_VALUE. -/
def stateBounded : ParserState → Prop
  | .ParsingX x => x ≤ MAX_MEMORY_VALUE
  | .AfterComma x => x ≤ MAX_MEMORY_VALUE
  | .ParsingY x y => x ≤ MAX_MEMORY_VALUE ∧ y ≤ MAX_MEMORY_VALUE
  | _ => True

/-- Outcome of one run of the day-3 binary, src/aoc-day-3/src/main.rs:
the exit code of the process and whether an error message was printed. -/
structure Day3Run where
  exit_code : Nat
  printed_error : Bool
deriving DecidableEq

/-- Modelled control flow of main in src/aoc-day-3/src/main.rs lines 8-18:
with no file argument it prints an error message and returns Ok so the
process exits 0; a file that cannot be opened makes File::open fail and
the try operator propagates the io::Error, a nonzero exit; otherwise the
file is processed and the program exits 0. -/
def day3_main (args : List String) (fs : String → Option (List Char)) : Day3Run :=
  match args with
  | [] => ⟨0, true⟩
  | f :: _ =>
    match fs f with
    | none => ⟨1, true⟩
    | some _ => ⟨0, false⟩

end Day3

namespace Day5

/-- PrinterLore from src/aoc-day-5/src/main.rs: the page that must be
printed first and the page that must follow. -/
structure PrinterLore where
  prerequisite : Nat
  dependent : Nat
deriving DecidableEq

/-- Membership query answered by PrinterTome::sacred_order: the HashMap
built by PrinterTome::inscribe maps a prerequisite to the HashSet of its
dependents, so lookup-and-contains holds exactly when some lore entry has
this prerequisite and this dependent. -/
def tomeHas (lore : List PrinterLore) (pre dep : Nat) : Bool :=
  lore.any fun r => r.prerequisite == pre && r.dependent == dep

/-- PrinterTome::violates_sacred_order lines 97-103. -/
def violates_sacred_order (lore : List PrinterLore) (first_page second_page : Nat) : Bool :=
  tomeHas lore second_page first_page

/-- respects_sacred_order lines 106-116: windows(2) is the zip of the
update with its tail. -/
def respects_sacred_order (update : List Nat) (lore : List PrinterLore) : Bool :=
  !((update.zip update.tail).any fun w =>
    violates_sacred_order lore w.1 w.2 && update.contains w.1 && update.contains w.2)

/-- The ordering property claimed of respects_sacred_order: no rule names
a later page of the update as one that must precede an earlier page. -/
def RespectsAllPairs (update : List Nat) (lore : List PrinterLore) : Prop :=
  ∀ i j (hij : i < j) (hj : j < update.length), ∀ r ∈ lore,
    ¬(r.prerequisite = update.get ⟨j, hj⟩ ∧
      r.dependent = update.get ⟨i, Nat.lt_trans hij hj⟩)

/-- Lore entries whose two pages both occur in the update; these are the
edges EnchantedOrderKeeper::summon records (lines 131-157). -/
def edgeList (pages : List Nat) (lore : List PrinterLore) : List PrinterLore :=
  lore.filter fun r => pages.contains r.prerequisite && pages.contains r.dependent

/-- The dependencies map of EnchantedOrderKeeper: for a page of the update,
the distinct dependents its kept edges point to (HashSet deduplicates). -/
def summonDeps (pages : List Nat) (lore : List PrinterLore) : Nat → List Nat :=
  fun p => (((edgeList pages lore).filter fun r => r.prerequisite == p).map (·.dependent)).dedup

/-- The prerequisites_count map of EnchantedOrderKeeper: every page starts
at zero and each kept lore entry increments its dependent, duplicates
included.  Counts are modelled on Int so that the decrement of
arrange_pages matches the wrapping usize subtraction: a decremented zero
never equals zero again. -/
def summonCounts (pages : List Nat) (lore : List PrinterLore) : Nat → Int :=
  fun p =>
    if pages.contains p then ((edgeList pages lore).filter fun r => r.dependent == p).length
    else 0

/-- Pointwise decrement of a count map. -/
def bump (counts : Nat → Int) (x : Nat) : Nat → Int :=
  fun p => if p = x then counts x - 1 else counts p

/-- The inner for loop of arrange_pages: decrement each dependent of the
popped page and enqueue it when its count reaches zero. -/
def processDeps (counts : Nat → Int) (queue : List Nat) : List Nat → (Nat → Int) × List Nat
  | [] => (counts, queue)
  | next :: more =>
    let c2 := bump counts next
    let q2 := if c2 next = 0 then queue ++ [next] else queue
    processDeps c2 q2 more

/-- The while-let loop of arrange_pages (lines 160-181) with explicit fuel;
the fuel passed by arrange_pages exceeds the total number of pushes, so
the zero-fuel branch is never taken. -/
def kahnLoop (deps : Nat → List Nat) : Nat → (Nat → Int) → List Nat → List Nat → List Nat
  | 0, _, _, acc => acc
  | fuel + 1, counts, queue, acc =>
    match queue with
    | [] => acc
    | page :: rest =>
      let step := processDeps counts rest (deps page)
      kahnLoop deps fuel step.1 step.2 (acc ++ [page])

/-- EnchantedOrderKeeper::summon followed by arrange_pages: Kahn ordering
of the pages under the kept rules, then any remaining pages (cycles) in
original order.  The initial ready queue enumerates the distinct pages in
first-occurrence order, one representative of the unspecified HashMap
iteration order. -/
def arrange_pages (pages : List Nat) (lore : List PrinterLore) : List Nat :=
  let deps := summonDeps pages lore
  let counts := summonCounts pages lore
  let ready := pages.dedup.filter fun p => counts p == 0
  let seq := kahnLoop deps (2 * pages.length + 2) counts ready []
  seq ++ pages.filter fun p => !(seq.contains p)

end Day5

namespace Day2

/-- Wrapping of an integer into the i32 value range, the release-build
semantics of overflowing i32 arithmetic. -/
def wrap32 (n : Int) : Int := (n + 2 ^ 31) % 2 ^ 32 - 2 ^ 31

/-- The window loop of ReactorSafetyAnalyzer::check_sequence_safety
(src/aoc-day-2/src/main.rs lines 87-113): dir is the is_increasing state,
prev the left end of the current window.  The difference window[1] -
window[0] is i32 subtraction and .abs() is i32 abs, both wrapping in a
release build, so each is passed through wrap32. -/
def checkLoop (dir : Option Bool) (prev : Int) : List Int → Bool
  | [] => true
  | x :: rest =>
    let diff := wrap32 (x - prev)
    let ad := wrap32 diff.natAbs
    if ad < 1 || 3 < ad then false
    else
      match dir with
      | none => checkLoop (some (decide (0 < diff))) x rest
      | some inc =>
        if (decide (0 < diff)) != inc then false
        else checkLoop (some inc) x rest

/-- ReactorSafetyAnalyzer::check_sequence_safety. -/
def check_sequence_safety (levels : List Int) : Bool :=
  match levels with
  | [] => true
  | [_] => true
  | x :: rest => checkLoop none x rest

/-- The dampened sequence built in analyze_safety_report: enumerate, keep
every index other than skip, and forget the indices again. -/
def removeAt (levels : List Int) (skip : Nat) : List Int :=
  (levels.enum.filter fun q => q.1 != skip).map (·.2)

/-- ReactorSafetyAnalyzer::analyze_safety_report lines 115-138, reduced to
whether the report is counted safe: the sequence itself, or some single
removal, passes check_sequence_safety. -/
def analyze_safety_report (levels : List Int) : Bool :=
  check_sequence_safety levels
    || (List.range levels.length).any fun skip => check_sequence_safety (removeAt levels skip)

/-- One upward step: adjacent difference between 1 and 3. -/
def upStep (a b : Int) : Prop := 1 ≤ b - a ∧ b - a ≤ 3

/-- One downward step: adjacent difference between -3 and -1. -/
def downStep (a b : Int) : Prop := 1 ≤ a - b ∧ a - b ≤ 3

/-- Strictly monotonic with every adjacent absolute difference in 1..3. -/
def StrictBounded (levels : List Int) : Prop :=
  levels.Chain' upStep ∨ levels.Chain' downStep

/-- The specified safety notion: safe as is, or safe after removing exactly
one element at some index. -/
def SafeSpec (levels : List Int) : Prop :=
  StrictBounded levels ∨ ∃ i, i < levels.length ∧ StrictBounded (levels.eraseIdx i)

/-- Decidability of the one-step relations, so that SafeSpec can be
evaluated at concrete reports. -/
instance : DecidableRel upStep := fun a b => decidable_of_iff (1 ≤ b - a ∧ b - a ≤ 3) Iff.rfl

instance : DecidableRel downStep := fun a b => decidable_of_iff (1 ≤ a - b ∧ a - b ≤ 3) Iff.rfl

/-- Structural decision procedure for List.Chain, reducible by the kernel. -/
def decChain (R : Int → Int → Prop) [DecidableRel R] :
    (a : Int) → (l : List Int) → Decidable (List.Chain R a l)
  | _, [] => .isTrue List.Chain.nil
  | a, b :: l =>
    haveI : Decidable (List.Chain R b l) := decChain R b l
    decidable_of_iff (R a b ∧ List.Chain R b l) List.chain_cons.symm

/-- Structural decision procedure for List.Chain'. -/
def decChainPrime (R : Int → Int → Prop) [DecidableRel R] :
    (l : List Int) → Decidable (List.Chain' R l)
  | [] => .isTrue trivial
  | a :: l => decChain R a l

instance : DecidablePred StrictBounded := fun l =>
  haveI h1 := decChainPrime upStep l
  haveI h2 := decChainPrime downStep l
  decidable_of_iff (l.Chain' upStep ∨ l.Chain' downStep) Iff.rfl

instance : DecidablePred SafeSpec := fun l =>
  decidable_of_iff (StrictBounded l ∨ ∃ i ∈ List.range l.length, StrictBounded (l.eraseIdx i))
    (by unfold SafeSpec; simp [List.mem_range])

end Day2

namespace Day1

/-- The loop of core slice::binary_search_by as called by
HistorianSage::record_location_sighting: repeatedly halve the window
keeping base when the probed element exceeds the target. -/
def bsearchLoop (l : List Int) (x : Int) (base size : Nat) : Nat :=
  if _h : size ≤ 1 then base
  else
    let half := size / 2
    let mid := base + half
    if x < l.getD mid 0 then bsearchLoop l x base (size - half)
    else bsearchLoop l x mid (size - half)
termination_by size
decreasing_by all_goals omega

/-- The insertion position binary_search yields: the Ok index on an exact
match, otherwise the Err insertion point. -/
def bsearchPos (l : List Int) (x : Int) : Nat :=
  if l.length = 0 then 0
  else
    let base := bsearchLoop l x 0 l.length
    let e := l.getD base 0
    if e = x then base
    else if e < x then base + 1
    else base

/-- HistorianSage::record_location_sighting (src/aoc-day-1/src/main.rs
lines 112-116): Vec::insert of the location at the binary-search position. -/
def record_location_sighting (l : List Int) (x : Int) : List Int :=
  let pos := bsearchPos l x
  l.take pos ++ x :: l.drop pos

/-- Recording a whole sequence of sightings into an initially empty scroll. -/
def recordAll (xs : List Int) : List Int :=
  xs.foldl record_location_sighting []

/-- HistorianSage::measure_historical_discrepancy lines 118-130: zip the
two scrolls up to the shorter length and sum absolute differences. -/
def measure_historical_discrepancy (senior junior : List Int) : Int :=
  let n := min senior.length junior.length
  (((senior.take n).zip (junior.take n)).map fun q => |q.1 - q.2|).sum

end Day1

namespace Day7

theorem perm_any_eq {l1 l2 : List Nat} (h : l1.Perm l2) (p : Nat → Bool) :
    l1.any p = l2.any p := by
  cases h2 : l2.any p
  · rw [List.any_eq_false] at h2 ⊢
    intro x hx
    exact h2 x (h.mem_iff.mp hx)
  · rw [List.any_eq_true] at h2 ⊢
    obtain ⟨x, hx, hpx⟩ := h2
    exact ⟨x, h.mem_iff.mpr hx, hpx⟩

/-- Claim C1: the length-3 fast path of is_calibratable deviates from the
specified semantics in both directions when string join is disabled.  The
equation 3: 1 1 1 is satisfied by Sum, Sum evaluated left to right yet
is_calibratable returns false, and the equation 17: 2 3 5 is satisfied by
no left-to-right operator choice yet is_calibratable returns true, because
the fast path tests a + b * c and a * b + c only and then gives up. -/
theorem day7_len3_fast_path_misses_combinations :
    (is_calibratable ⟨3, [1, 1, 1]⟩ false = false ∧ CalibratableSpec ⟨3, [1, 1, 1]⟩ false)
  ∧ (is_calibratable ⟨17, [2, 3, 5]⟩ false = true ∧ ¬ CalibratableSpec ⟨17, [2, 3, 5]⟩ false) := by
  refine ⟨⟨by decide, ⟨[.Sum, .Sum], by decide, by decide, by decide⟩⟩, by decide, ?_⟩
  rintro ⟨ops, hlen, hallow, heval⟩
  obtain ⟨op1, op2, rfl⟩ := List.length_eq_two.mp hlen
  cases op1 <;> cases op2 <;> exact absurd heval (by decide)

/-- Claim C5: for an equation of four or more load factors the parallel
any-search of is_calibratable is deterministic: every enumeration order of
the combination indices 0..possible_combinations, modelled as an arbitrary
permutation of that range, evaluates the same per-index predicate to the
same boolean that is_calibratable returns. -/
theorem day7_parallel_any_eq_sequential (eq : BridgeEquation) (allow : Bool)
    (h : 4 ≤ eq.load_factors.length) (l : List Nat)
    (hl : l.Perm (List.range (possibleCombinations eq allow))) :
    l.any (comboHits eq allow) = is_calibratable eq allow := by
  obtain ⟨t, fs⟩ := eq
  match fs, h with
  | a :: b :: c :: d :: rest, _ =>
    rw [perm_any_eq hl]
    rfl

/-- Witness for claim C5 at the sample equation 292: 11 6 16 20, with the
reversed enumeration order standing in for a worker interleaving. -/
theorem day7_parallel_any_eq_sequential_witness :
    (List.range (possibleCombinations ⟨292, [11, 6, 16, 20]⟩ false)).reverse.any
        (comboHits ⟨292, [11, 6, 16, 20]⟩ false)
      = is_calibratable ⟨292, [11, 6, 16, 20]⟩ false :=
  day7_parallel_any_eq_sequential ⟨292, [11, 6, 16, 20]⟩ false (by decide) _
    (List.reverse_perm _)

/-- Claim C6: parsing the nine-line sample input and totalling the target
stresses of the calibratable equations yields 3749 with the basic
operators and 11387 with string join allowed. -/
theorem day7_sample_stress_totals :
    (calibratorNew sampleSpecs).map calculate_basic_stress = some 3749 ∧
    (calibratorNew sampleSpecs).map calculate_advanced_stress = some 11387 :=
  ⟨by decide, by decide⟩

end Day7

namespace Day3

/-- Claim C7: feeding each character of the two sample inputs in order
from the default parser state yields final checksums 161 and 48. -/
theorem day3_sample_checksums :
    (runParser sample1).checksum = 161 ∧ (runParser sample2).checksum = 48 :=
  ⟨by decide, by decide⟩

/-- Claim C3 counterexample: the day-3 program invoked with no file-path
argument prints an error message but returns Ok from main, so the process
exits 0, not non-zero as claimed. -/
theorem day3_no_arg_exit_code_zero :
    (day3_main [] fun _ => none) = ⟨0, true⟩ ∧ ¬((day3_main [] fun _ => none).exit_code ≠ 0) :=
  ⟨rfl, by decide⟩

/-- Claim C3 amended: the day-3 program prints an error and exits 0 when
no argument is given, exits non-zero with an error exactly when the named
file cannot be opened, and exits 0 after processing an openable file. -/
theorem day3_exit_codes :
    (∀ fs, day3_main [] fs = ⟨0, true⟩)
  ∧ (∀ f rest fs, fs f = none → day3_main (f :: rest) fs = ⟨1, true⟩)
  ∧ (∀ f rest fs contents, fs f = some contents → day3_main (f :: rest) fs = ⟨0, false⟩) := by
  refine ⟨fun fs => rfl, fun f rest fs hf => ?_, fun f rest fs contents hf => ?_⟩
  · simp [day3_main, hf]
  · simp [day3_main, hf]

/-- Witness for the amended claim C3 at concrete arguments. -/
theorem day3_exit_codes_witness :
    day3_main ["input.txt"] (fun _ => none) = ⟨1, true⟩ :=
  day3_exit_codes.2.1 "input.txt" [] (fun _ => none) rfl

end Day3

namespace Day5

theorem zip_tail_any (l : List Nat) (p : Nat × Nat → Bool) :
    (l.zip l.tail).any p = true ↔
      ∃ i, ∃ h : i + 1 < l.length,
        p (l.get ⟨i, Nat.lt_of_succ_lt h⟩, l.get ⟨i + 1, h⟩) = true := by
  induction l with
  | nil => simp
  | cons a t ih =>
    cases t with
    | nil => simp
    | cons b t2 =>
      have hstep : ((a :: b :: t2).zip (a :: b :: t2).tail).any p
          = (p (a, b) || ((b :: t2).zip (b :: t2).tail).any p) := by
        simp [List.zip]
      rw [hstep]
      constructor
      · intro h
        rcases Bool.or_eq_true_iff.mp h with h1 | h2
        · exact ⟨0, by simp, by simpa using h1⟩
        · obtain ⟨i, hi, hp⟩ := ih.mp h2
          exact ⟨i + 1, by simpa using hi, by simpa using hp⟩
      · rintro ⟨i, hi, hp⟩
        cases i with
        | zero => exact Bool.or_eq_true_iff.mpr (Or.inl (by simpa using hp))
        | succ k =>
          exact Bool.or_eq_true_iff.mpr (Or.inr (ih.mpr ⟨k, by simpa using hi, by simpa using hp⟩))

/-- Claim C2 counterexample: with the single rule 3 before 1 and the
update 1, 2, 3, no adjacent pair violates a rule so respects_sacred_order
returns true, yet positions 0 and 2 violate the all-pairs property the
claim states. -/
theorem day5_adjacent_check_counterexample :
    respects_sacred_order [1, 2, 3] [⟨3, 1⟩] = true ∧ ¬ RespectsAllPairs [1, 2, 3] [⟨3, 1⟩] := by
  refine ⟨by decide, fun h => ?_⟩
  exact h 0 2 (by omega) (by decide) ⟨3, 1⟩ (by simp) ⟨rfl, rfl⟩

/-- Claim C2 amended: respects_sacred_order returns true exactly when no
adjacent pair of the update violates a rule, that is, for every position i
no rule names update at i+1 as a page that must be printed before update
at i. -/
theorem day5_respects_iff_adjacent_pairs (update : List Nat) (lore : List PrinterLore) :
    respects_sacred_order update lore = true ↔
    ∀ i (h : i + 1 < update.length), ∀ r ∈ lore,
      ¬(r.prerequisite = update.get ⟨i + 1, h⟩ ∧
        r.dependent = update.get ⟨i, Nat.lt_of_succ_lt h⟩) := by
  unfold respects_sacred_order
  rw [Bool.not_eq_true', ← Bool.not_eq_true, zip_tail_any]
  constructor
  · intro hno i hi r hr ⟨hpre, hdep⟩
    apply hno
    refine ⟨i, hi, ?_⟩
    simp only [Bool.and_eq_true]
    refine ⟨⟨?_, ?_⟩, ?_⟩
    · simp only [violates_sacred_order, tomeHas, List.any_eq_true]
      exact ⟨r, hr, by simp [hpre, hdep]⟩
    · simp [List.get_mem]
    · simp [List.get_mem]
  · rintro hall ⟨i, hi, hp⟩
    simp only [Bool.and_eq_true, violates_sacred_order, tomeHas, List.any_eq_true] at hp
    obtain ⟨⟨⟨r, hr, hrq⟩, _⟩, _⟩ := hp
    simp only [Bool.and_eq_true, beq_iff_eq] at hrq
    exact hall i hi r hr ⟨hrq.1, hrq.2⟩

end Day5

namespace Day2

lemma wrap32_eq {n : Int} (h : n.natAbs < 2 ^ 31) : wrap32 n = n := by
  unfold wrap32
  omega

lemma checkLoop_cons_eq (dir : Option Bool) (prev x : Int) (rest : List Int)
    (hp : prev.natAbs < 2 ^ 30) (hx : x.natAbs < 2 ^ 30) :
    checkLoop dir prev (x :: rest)
      = (if ((x - prev).natAbs < 1 || 3 < (x - prev).natAbs : Bool) then false
        else
          match dir with
          | none => checkLoop (some (decide (0 < x - prev))) x rest
          | some inc =>
            if (decide (0 < x - prev)) != inc then false
            else checkLoop (some inc) x rest) := by
  have h1 : wrap32 (x - prev) = x - prev := wrap32_eq (by omega)
  show (if (wrap32 ((wrap32 (x - prev)).natAbs : Int) < 1
        || 3 < wrap32 ((wrap32 (x - prev)).natAbs : Int) : Bool) then false
      else
        match dir with
        | none => checkLoop (some (decide (0 < wrap32 (x - prev)))) x rest
        | some inc =>
          if (decide (0 < wrap32 (x - prev))) != inc then false
          else checkLoop (some inc) x rest) = _
  rw [h1]
  have h2 : wrap32 ((x - prev).natAbs : Int) = ((x - prev).natAbs : Int) :=
    wrap32_eq (by omega)
  rw [h2]
  have hc1 : decide ((((x - prev).natAbs : Int)) < 1) = decide ((x - prev).natAbs < 1) :=
    decide_eq_decide.mpr (by omega)
  have hc2 : decide ((3 : Int) < (((x - prev).natAbs : Int))) = decide (3 < (x - prev).natAbs) :=
    decide_eq_decide.mpr (by omega)
  rw [hc1, hc2]

lemma checkLoop_true_iff : ∀ (rest : List Int) (prev : Int),
    (∀ y ∈ prev :: rest, y.natAbs < 2 ^ 30) →
    (checkLoop (some true) prev rest = true ↔ List.Chain' upStep (prev :: rest)) := by
  intro rest
  induction rest with
  | nil => intro prev _; simp [checkLoop]
  | cons x rest ih =>
    intro prev hbd
    have ihx := ih x fun y hy => hbd y (List.mem_cons_of_mem prev hy)
    rw [List.chain'_cons,
      checkLoop_cons_eq (some true) prev x rest (hbd prev (by simp)) (hbd x (by simp))]
    show (if ((x - prev).natAbs < 1 || 3 < (x - prev).natAbs : Bool) then false
      else if (decide (0 < x - prev) != true) then false
      else checkLoop (some true) x rest) = true ↔ _
    by_cases hbad : (x - prev).natAbs < 1 ∨ 3 < (x - prev).natAbs
    · rw [if_pos (by rcases hbad with h | h <;> simp [h])]
      simp only [Bool.false_eq_true, false_iff]
      rintro ⟨⟨h1, h2⟩, _⟩
      omega
    · push_neg at hbad
      rw [if_neg (by simp; omega)]
      by_cases hpos : (0 : Int) < x - prev
      · rw [if_neg (by simp [hpos])]
        rw [ihx]
        have hup : upStep prev x := by unfold upStep; omega
        tauto
      · rw [if_pos (by simp [hpos])]
        simp only [Bool.false_eq_true, false_iff]
        rintro ⟨⟨h1, h2⟩, _⟩
        omega

end Day2

namespace Day2

lemma checkLoop_false_iff : ∀ (rest : List Int) (prev : Int),
    (∀ y ∈ prev :: rest, y.natAbs < 2 ^ 30) →
    (checkLoop (some false) prev rest = true ↔ List.Chain' downStep (prev :: rest)) := by
  intro rest
  induction rest with
  | nil => intro prev _; simp [checkLoop]
  | cons x rest ih =>
    intro prev hbd
    have ihx := ih x fun y hy => hbd y (List.mem_cons_of_mem prev hy)
    rw [List.chain'_cons,
      checkLoop_cons_eq (some false) prev x rest (hbd prev (by simp)) (hbd x (by simp))]
    show (if ((x - prev).natAbs < 1 || 3 < (x - prev).natAbs : Bool) then false
      else if (decide (0 < x - prev) != false) then false
      else checkLoop (some false) x rest) = true ↔ _
    by_cases hbad : (x - prev).natAbs < 1 ∨ 3 < (x - prev).natAbs
    · rw [if_pos (by rcases hbad with h | h <;> simp [h])]
      simp only [Bool.false_eq_true, false_iff]
      rintro ⟨⟨h1, h2⟩, _⟩
      omega
    · push_neg at hbad
      by_cases hpos : (0 : Int) < x - prev
      · rw [if_neg (by simp; omega), if_pos (by simp [hpos])]
        simp only [Bool.false_eq_true, false_iff]
        rintro ⟨⟨h1, h2⟩, _⟩
        omega
      · rw [if_neg (by simp; omega), if_neg (by simp [hpos])]
        rw [ihx]
        have hdn : downStep prev x := by unfold downStep; omega
        tauto

lemma checkLoop_none_iff : ∀ (rest : List Int) (prev : Int),
    (∀ y ∈ prev :: rest, y.natAbs < 2 ^ 30) →
    (checkLoop none prev rest = true ↔
      (List.Chain' upStep (prev :: rest) ∨ List.Chain' downStep (prev :: rest))) := by
  intro rest prev hbd
  cases rest with
  | nil => simp [checkLoop]
  | cons x rest =>
    rw [checkLoop_cons_eq none prev x rest (hbd prev (by simp)) (hbd x (by simp))]
    show (if ((x - prev).natAbs < 1 || 3 < (x - prev).natAbs : Bool) then false
      else checkLoop (some (decide (0 < x - prev))) x rest) = true ↔ _
    rw [List.chain'_cons, List.chain'_cons]
    by_cases hbad : (x - prev).natAbs < 1 ∨ 3 < (x - prev).natAbs
    · rw [if_pos (by rcases hbad with h | h <;> simp [h])]
      simp only [Bool.false_eq_true, false_iff]
      rintro (⟨⟨h1, h2⟩, _⟩ | ⟨⟨h1, h2⟩, _⟩) <;> omega
    · push_neg at hbad
      rw [if_neg (by simp; omega)]
      by_cases hpos : (0 : Int) < x - prev
      · have hd : decide (0 < x - prev) = true := by simp [hpos]
        rw [hd, checkLoop_true_iff rest x fun y hy => hbd y (List.mem_cons_of_mem prev hy)]
        have hup : upStep prev x := by unfold upStep; omega
        have hdn : ¬ downStep prev x := by unfold downStep; omega
        tauto
      · have hd : decide (0 < x - prev) = false := by simp [hpos]
        rw [hd, checkLoop_false_iff rest x fun y hy => hbd y (List.mem_cons_of_mem prev hy)]
        have hdn : downStep prev x := by unfold downStep; omega
        have hup : ¬ upStep prev x := by unfold upStep; omega
        tauto
end Day2

namespace Day2

lemma check_sequence_safety_iff (levels : List Int)
    (hbd : ∀ y ∈ levels, y.natAbs < 2 ^ 30) :
    check_sequence_safety levels = true ↔ StrictBounded levels := by
  match levels with
  | [] => simp [check_sequence_safety, StrictBounded]
  | [x] => simp [check_sequence_safety, StrictBounded]
  | x :: y :: rest =>
    show checkLoop none x (y :: rest) = true ↔ _
    rw [checkLoop_none_iff (y :: rest) x hbd]
    rfl

lemma enumFrom_filter_lt : ∀ (l : List Int) (n skip : Nat), skip < n →
    ((List.enumFrom n l).filter fun q => q.1 != skip).map (·.2) = l := by
  intro l
  induction l with
  | nil => intro n skip _; rfl
  | cons x xs ih =>
    intro n skip h
    have hne : (n != skip) = true := by simp; omega
    simp only [List.enumFrom, List.filter_cons, hne, if_true, List.map_cons]
    rw [ih (n + 1) skip (by omega)]

lemma enumFrom_filter_ge : ∀ (l : List Int) (n skip : Nat), n ≤ skip →
    ((List.enumFrom n l).filter fun q => q.1 != skip).map (·.2) = l.eraseIdx (skip - n) := by
  intro l
  induction l with
  | nil => intro n skip _; rfl
  | cons x xs ih =>
    intro n skip h
    by_cases heq : n = skip
    · subst heq
      have hne : (n != n) = false := by simp
      simp only [List.enumFrom, List.filter_cons, hne, if_false, Nat.sub_self, List.eraseIdx]
      exact enumFrom_filter_lt xs (n + 1) n (by omega)
    · have hne : (n != skip) = true := by simp; omega
      simp only [List.enumFrom, List.filter_cons, hne, if_true, List.map_cons]
      rw [ih (n + 1) skip (by omega)]
      have : skip - n = (skip - (n + 1)) + 1 := by omega
      rw [this]
      rfl

lemma removeAt_eq_eraseIdx (levels : List Int) (skip : Nat) :
    removeAt levels skip = levels.eraseIdx skip := by
  unfold removeAt
  have := enumFrom_filter_ge levels 0 skip (by omega)
  simpa [List.enum] using this

/-- Claim C4 counterexample: the all-i32 report 2147483641, 2147483644,
2147483647, -2147483646, -2147483643 is counted safe by the program - the
wrapped i32 differences are all +3 - although neither the list nor any
single-removal sublist is strictly monotonic with exact differences in
1..3, so the claimed iff is false of the release binary. -/
theorem day2_wrapping_counterexample :
    analyze_safety_report [2147483641, 2147483644, 2147483647, -2147483646, -2147483643] = true
  ∧ ¬ SafeSpec [2147483641, 2147483644, 2147483647, -2147483646, -2147483643] :=
  ⟨by decide, by decide⟩

/-- Claim C4 amended: for every report whose entries all have magnitude
below 2^30 - so that no windowed i32 subtraction overflows - the report is
counted safe exactly when the list itself, or the list with exactly one
element removed at some index, is strictly monotonic with every adjacent
absolute difference between 1 and 3; lists of fewer than two elements are
vacuously safe.  On reports where the subtraction overflows, the wrapped
differences decide safety instead. -/
theorem day2_analyze_iff_safe_spec (levels : List Int)
    (hbound : ∀ y ∈ levels, y.natAbs < 2 ^ 30) :
    analyze_safety_report levels = true ↔ SafeSpec levels := by
  unfold analyze_safety_report SafeSpec
  rw [Bool.or_eq_true, check_sequence_safety_iff levels hbound, List.any_eq_true]
  apply or_congr Iff.rfl
  constructor
  · rintro ⟨i, hi, hp⟩
    rw [removeAt_eq_eraseIdx,
      check_sequence_safety_iff _
        fun y hy => hbound y ((List.eraseIdx_sublist levels i).subset hy)] at hp
    exact ⟨i, List.mem_range.mp hi, hp⟩
  · rintro ⟨i, hi, hp⟩
    refine ⟨i, List.mem_range.mpr hi, ?_⟩
    rw [removeAt_eq_eraseIdx,
      check_sequence_safety_iff _
        fun y hy => hbound y ((List.eraseIdx_sublist levels i).subset hy)]
    exact hp

/-- Witness for the amended claim C4 at a sample report. -/
theorem day2_analyze_iff_safe_spec_witness :
    analyze_safety_report [1, 3, 2, 4, 5] = true ↔ SafeSpec [1, 3, 2, 4, 5] :=
  day2_analyze_iff_safe_spec [1, 3, 2, 4, 5] (by decide)

end Day2

namespace Day3

lemma charDigit_le {c : Char} {d : Nat} (h : charDigit c = some d) : d ≤ 9 := by
  unfold charDigit at h
  split at h
  · next hd =>
    injection h with h
    subst h
    unfold Char.isDigit at hd
    simp only [Bool.and_eq_true, decide_eq_true_eq] at hd
    have h57 : c.val.toNat ≤ 57 := hd.2
    unfold Char.toNat
    omega
  · exact absurd h (by simp)

lemma stateBounded_step (p : MemoryParser) (c : Char) (hb : stateBounded p.state) :
    stateBounded (process_char p c).state := by
  obtain ⟨ck, st, en⟩ := p
  cases st <;> simp only [process_char] at hb ⊢ <;>
    (repeat' split) <;>
    simp only [stateBounded, MAX_MEMORY_VALUE] at * <;>
    first
    | trivial
    | omega
    | (exact le_trans (charDigit_le ‹_›) (by omega))
    | (exact ⟨hb, le_trans (charDigit_le ‹_›) (by omega)⟩)

lemma runParser_bounded (input : List Char) : stateBounded (runParser input).state := by
  suffices h : ∀ (l : List Char) (p : MemoryParser), stateBounded p.state →
      stateBounded (l.foldl process_char p).state by
    exact h input MemoryParser.start trivial
  intro l
  induction l with
  | nil => intro p hp; exact hp
  | cons c cs ih => intro p hp; exact ih _ (stateBounded_step p c hp)

lemma checksum_step (p : MemoryParser) (c : Char) (hb : stateBounded p.state) :
    (process_char p c).checksum = p.checksum ∨
    ∃ x y, x ≤ MAX_MEMORY_VALUE ∧ y ≤ MAX_MEMORY_VALUE ∧
      (process_char p c).checksum = (p.checksum + x * y) % U32_LIMIT := by
  obtain ⟨ck, st, en⟩ := p
  cases st <;> simp only [process_char] at hb ⊢ <;>
    (repeat' split) <;>
    first
    | exact Or.inl rfl
    | exact Or.inr ⟨_, _, hb.1, hb.2, rfl⟩

end Day3

namespace Day3

/-- Claim C8: along any input, each character either leaves the checksum
unchanged or adds (modulo u32) a product x * y of two operands both at
most MAX_MEMORY_VALUE = 999; moreover the operands held in the parser
state after any input are themselves bounded by 999, because a digit that
would push an operand past 999 resets the state machine to Initial. -/
theorem day3_checksum_additions_bounded (input : List Char) (c : Char) :
    stateBounded (runParser input).state ∧
    ((process_char (runParser input) c).checksum = (runParser input).checksum ∨
      ∃ x y, x ≤ MAX_MEMORY_VALUE ∧ y ≤ MAX_MEMORY_VALUE ∧
        (process_char (runParser input) c).checksum
          = ((runParser input).checksum + x * y) % U32_LIMIT) :=
  ⟨runParser_bounded input, checksum_step _ c (runParser_bounded input)⟩

end Day3

namespace Day1

lemma sorted_getD_le (l : List Int) (hs : l.Sorted (· ≤ ·)) {i j : Nat}
    (hij : i ≤ j) (hj : j < l.length) : l.getD i 0 ≤ l.getD j 0 := by
  rcases Nat.eq_or_lt_of_le hij with rfl | hlt
  · exact le_refl _
  · rw [List.getD_eq_getElem _ _ (by omega), List.getD_eq_getElem _ _ hj]
    have h2 := hs.rel_get_of_lt (a := ⟨i, by omega⟩) (b := ⟨j, hj⟩) (by simpa using hlt)
    simpa [List.get_eq_getElem] using h2

lemma bsearchLoop_spec (l : List Int) (x : Int) (hs : l.Sorted (· ≤ ·)) :
    ∀ size base, 1 ≤ size → base + size ≤ l.length →
      (∀ i, i < base → l.getD i 0 ≤ x) →
      (∀ i, base + size ≤ i → i < l.length → x < l.getD i 0) →
      (base ≤ bsearchLoop l x base size ∧ bsearchLoop l x base size < l.length ∧
        (∀ i, i < bsearchLoop l x base size → l.getD i 0 ≤ x) ∧
        (∀ i, bsearchLoop l x base size + 1 ≤ i → i < l.length → x < l.getD i 0)) := by
  intro size
  induction size using Nat.strong_induction_on with
  | _ size ih =>
    intro base h1 hlen hlo hhi
    rw [bsearchLoop]
    by_cases hle : size ≤ 1
    · rw [dif_pos hle]
      refine ⟨le_refl _, by omega, hlo, fun i hi hil => hhi i (by omega) hil⟩
    · rw [dif_neg hle]
      dsimp only
      by_cases hx : x < l.getD (base + size / 2) 0
      · rw [if_pos hx]
        refine ih (size - size / 2) (by omega) base (by omega) (by omega) hlo ?_
        intro i hi hil
        exact lt_of_lt_of_le hx (sorted_getD_le l hs (by omega) hil)
      · rw [if_neg hx]
        push_neg at hx
        have hlo2 : ∀ i, i < base + size / 2 → l.getD i 0 ≤ x := fun i hi =>
          le_trans (sorted_getD_le l hs (by omega) (by omega)) hx
        have hhi2 : ∀ i, base + size / 2 + (size - size / 2) ≤ i → i < l.length →
            x < l.getD i 0 := fun i hi hil => hhi i (by omega) hil
        obtain ⟨ha, hb2, hc, hd⟩ :=
          ih (size - size / 2) (by omega) (base + size / 2) (by omega) (by omega) hlo2 hhi2
        exact ⟨by omega, hb2, hc, hd⟩

end Day1

namespace Day1

lemma bsearchPos_spec (l : List Int) (x : Int) (hs : l.Sorted (· ≤ ·)) :
    bsearchPos l x ≤ l.length ∧
    (∀ i, i < bsearchPos l x → l.getD i 0 ≤ x) ∧
    (∀ i, bsearchPos l x ≤ i → i < l.length → x ≤ l.getD i 0) := by
  unfold bsearchPos
  by_cases h0 : l.length = 0
  · rw [if_pos h0]
    exact ⟨by omega, fun i hi => absurd hi (by omega), fun i hi hil => absurd hil (by omega)⟩
  · rw [if_neg h0]
    obtain ⟨hb1, hb2, hb3, hb4⟩ :=
      bsearchLoop_spec l x hs l.length 0 (by omega) (by omega)
        (fun i hi => absurd hi (by omega)) (fun i hi hil => absurd hil (by omega))
    dsimp only
    by_cases he : l.getD (bsearchLoop l x 0 l.length) 0 = x
    · rw [if_pos he]
      refine ⟨by omega, hb3, fun i hi hil => ?_⟩
      rcases Nat.eq_or_lt_of_le hi with rfl | hgt
      · rw [he]
      · exact le_of_lt (hb4 i (by omega) hil)
    · rw [if_neg he]
      by_cases hlt : l.getD (bsearchLoop l x 0 l.length) 0 < x
      · rw [if_pos hlt]
        refine ⟨by omega, fun i hi => ?_, fun i hi hil => le_of_lt (hb4 i (by omega) hil)⟩
        rcases Nat.lt_or_ge i (bsearchLoop l x 0 l.length) with h | h
        · exact hb3 i h
        · have : i = bsearchLoop l x 0 l.length := by omega
          subst this
          exact le_of_lt hlt
      · rw [if_neg hlt]
        refine ⟨by omega, hb3, fun i hi hil => ?_⟩
        rcases Nat.eq_or_lt_of_le hi with rfl | hgt
        · exact le_of_not_lt hlt
        · exact le_of_lt (hb4 i (by omega) hil)

lemma record_spec (l : List Int) (x : Int) (hs : l.Sorted (· ≤ ·)) :
    (record_location_sighting l x).Sorted (· ≤ ·) ∧ x ∈ record_location_sighting l x ∧
    (record_location_sighting l x).Perm (x :: l) := by
  obtain ⟨hp1, hp2, hp3⟩ := bsearchPos_spec l x hs
  unfold record_location_sighting
  dsimp only
  refine ⟨?_, ?_, ?_⟩
  · have hxle : ∀ b ∈ l.drop (bsearchPos l x), x ≤ b := by
      intro b hb
      obtain ⟨j, hj, rfl⟩ := List.mem_iff_getElem.mp hb
      rw [List.getElem_drop]
      have hjlen : bsearchPos l x + j < l.length := by
        have := l.length_drop (bsearchPos l x)
        omega
      rw [← List.getD_eq_getElem _ 0 hjlen]
      exact hp3 _ (by omega) hjlen
    rw [List.Sorted, List.pairwise_append]
    refine ⟨List.Pairwise.sublist (List.take_sublist _ l) hs, ?_, ?_⟩
    · rw [List.pairwise_cons]
      exact ⟨hxle, List.Pairwise.sublist (List.drop_sublist _ l) hs⟩
    · intro a ha b hb
      have hax : a ≤ x := by
        obtain ⟨i, hi, rfl⟩ := List.mem_iff_getElem.mp ha
        rw [List.getElem_take]
        have hilen : i < l.length := by
          have := l.length_take (bsearchPos l x)
          omega
        have hipos : i < bsearchPos l x := by
          have := l.length_take (bsearchPos l x)
          omega
        rw [← List.getD_eq_getElem _ 0 hilen]
        exact hp2 _ hipos
      rcases List.mem_cons.mp hb with rfl | hb2
      · exact hax
      · exact le_trans hax (hxle b hb2)
  · exact List.mem_append_right _ (List.mem_cons_self x _)
  · have h1 := @List.perm_middle _ x (l.take (bsearchPos l x)) (l.drop (bsearchPos l x))
    rwa [List.take_append_drop] at h1

end Day1

namespace Day1

lemma recordAll_sorted_perm : ∀ (xs acc : List Int), acc.Sorted (· ≤ ·) →
    (xs.foldl record_location_sighting acc).Sorted (· ≤ ·) ∧
    (xs.foldl record_location_sighting acc).Perm (acc ++ xs) := by
  intro xs
  induction xs with
  | nil => intro acc h; exact ⟨h, by simp⟩
  | cons y ys ih =>
    intro acc h
    obtain ⟨hs2, _, hperm2⟩ := record_spec acc y h
    obtain ⟨ihs, ihp⟩ := ih (record_location_sighting acc y) hs2
    refine ⟨ihs, ?_⟩
    refine ihp.trans ?_
    refine (hperm2.append_right ys).trans ?_
    exact (@List.perm_middle _ y acc ys).symm

/-- Claim C9: inserting into a sorted scroll at the binary-search position
preserves nondecreasing order, the inserted value is present, and the
result is a permutation of the old scroll plus the value; consequently a
sequence of insertions into an initially empty scroll produces exactly the
sorted list of the inserted values, so measure_historical_discrepancy
pairs the i-th smallest senior entry with the i-th smallest junior entry. -/
theorem day1_record_sorted_insert :
    (∀ (l : List Int) (x : Int), l.Sorted (· ≤ ·) →
      (record_location_sighting l x).Sorted (· ≤ ·) ∧
      x ∈ record_location_sighting l x ∧
      (record_location_sighting l x).Perm (x :: l)) ∧
    (∀ xs : List Int, recordAll xs = xs.insertionSort (· ≤ ·)) ∧
    (∀ xs ys : List Int,
      measure_historical_discrepancy (recordAll xs) (recordAll ys)
        = measure_historical_discrepancy (xs.insertionSort (· ≤ ·)) (ys.insertionSort (· ≤ ·))) := by
  have hsortall : ∀ xs : List Int, recordAll xs = xs.insertionSort (· ≤ ·) := by
    intro xs
    obtain ⟨hsorted, hperm⟩ := recordAll_sorted_perm xs [] (by simp)
    refine List.eq_of_perm_of_sorted ?_ hsorted (List.sorted_insertionSort _ xs)
    refine (by simpa using hperm : (recordAll xs).Perm xs).trans ?_
    exact (List.perm_insertionSort _ xs).symm
  exact ⟨fun l x hs => record_spec l x hs, hsortall, fun xs ys => by rw [hsortall, hsortall]⟩

/-- Witness for claim C9 at a concrete sorted scroll. -/
theorem day1_record_sorted_insert_witness :
    (record_location_sighting [1, 3] 2).Sorted (· ≤ ·) :=
  (day1_record_sorted_insert.1 [1, 3] 2 (by simp)).1

end Day1

namespace Day5

lemma bump_self (counts : Nat → Int) (x : Nat) : bump counts x x = counts x - 1 := by
  simp [bump]

lemma bump_other (counts : Nat → Int) (x p : Nat) (h : p ≠ x) : bump counts x p = counts p := by
  simp [bump, h]

lemma processDeps_invariant (pages done : List Nat) :
    ∀ (ds : List Nat) (counts : Nat → Int) (queue : List Nat),
      (∀ q ∈ ds, q ∈ pages) →
      (done ++ queue).Nodup →
      (∀ p ∈ done ++ queue, p ∈ pages) →
      (∀ p ∈ done ++ queue, counts p ≤ 0) →
      ((done ++ (processDeps counts queue ds).2).Nodup ∧
        (∀ p ∈ done ++ (processDeps counts queue ds).2, p ∈ pages) ∧
        (∀ p ∈ done ++ (processDeps counts queue ds).2, (processDeps counts queue ds).1 p ≤ 0)) := by
  intro ds
  induction ds with
  | nil =>
    intro counts queue _ h1 h2 h3
    exact ⟨h1, h2, h3⟩
  | cons next more ih =>
    intro counts queue hds h1 h2 h3
    by_cases hz : bump counts next next = 0
    · have hnotin : next ∉ done ++ queue := by
        intro hmem
        have := h3 next hmem
        rw [bump_self] at hz
        omega
      have goalshape : processDeps counts queue (next :: more)
          = processDeps (bump counts next) (queue ++ [next]) more := by
        show (let c2 := bump counts next
          let q2 := if c2 next = 0 then queue ++ [next] else queue
          processDeps c2 q2 more) = _
        simp only [hz, if_pos]
      rw [goalshape]
      apply ih (bump counts next) (queue ++ [next]) (fun q hq => hds q (List.mem_cons_of_mem _ hq))
      · rw [← List.append_assoc]
        rw [List.nodup_append]
        exact ⟨h1, by simp, by simpa [List.disjoint_singleton] using hnotin⟩
      · intro p hp
        rw [← List.append_assoc] at hp
        rcases List.mem_append.mp hp with hp1 | hp2
        · exact h2 p hp1
        · have : p = next := by simpa using hp2
          subst this
          exact hds p (List.mem_cons_self _ _)
      · intro p hp
        by_cases hpn : p = next
        · subst hpn
          omega
        · rw [bump_other _ _ _ hpn]
          apply h3
          rw [← List.append_assoc] at hp
          rcases List.mem_append.mp hp with hp1 | hp2
          · exact hp1
          · exact absurd (by simpa using hp2) hpn
    · have goalshape : processDeps counts queue (next :: more)
          = processDeps (bump counts next) queue more := by
        show (let c2 := bump counts next
          let q2 := if c2 next = 0 then queue ++ [next] else queue
          processDeps c2 q2 more) = _
        simp only [hz, if_neg, if_false]
      rw [goalshape]
      apply ih (bump counts next) queue (fun q hq => hds q (List.mem_cons_of_mem _ hq)) h1 h2
      intro p hp
      by_cases hpn : p = next
      · subst hpn
        rw [bump_self]
        have := h3 p hp
        omega
      · rw [bump_other _ _ _ hpn]
        exact h3 p hp

end Day5

namespace Day5

lemma kahnLoop_invariant (deps : Nat → List Nat) (pages : List Nat)
    (hdeps : ∀ p q, q ∈ deps p → q ∈ pages) :
    ∀ (fuel : Nat) (counts : Nat → Int) (queue acc : List Nat),
      (acc ++ queue).Nodup →
      (∀ p ∈ acc ++ queue, p ∈ pages) →
      (∀ p ∈ acc ++ queue, counts p ≤ 0) →
      ((kahnLoop deps fuel counts queue acc).Nodup ∧
        ∀ p ∈ kahnLoop deps fuel counts queue acc, p ∈ pages) := by
  intro fuel
  induction fuel with
  | zero =>
    intro counts queue acc h1 h2 _
    exact ⟨h1.of_append_left, fun p hp => h2 p (List.mem_append_left _ hp)⟩
  | succ fuel ih =>
    intro counts queue acc h1 h2 h3
    cases queue with
    | nil =>
      exact ⟨(by simpa using h1 : acc.Nodup), fun p hp => h2 p (by simpa using hp)⟩
    | cons page rest =>
      have hshape : kahnLoop deps (fuel + 1) counts (page :: rest) acc
          = kahnLoop deps fuel (processDeps counts rest (deps page)).1
              (processDeps counts rest (deps page)).2 (acc ++ [page]) := rfl
      rw [hshape]
      have h1b : ((acc ++ [page]) ++ rest).Nodup := by
        rw [List.append_assoc]
        exact h1
      have h2b : ∀ p ∈ (acc ++ [page]) ++ rest, p ∈ pages := by
        intro p hp
        rw [List.append_assoc] at hp
        exact h2 p hp
      have h3b : ∀ p ∈ (acc ++ [page]) ++ rest, counts p ≤ 0 := by
        intro p hp
        rw [List.append_assoc] at hp
        exact h3 p hp
      obtain ⟨j1, j2, j3⟩ :=
        processDeps_invariant pages (acc ++ [page]) (deps page) counts rest
          (fun q hq => hdeps page q hq) h1b h2b h3b
      exact ih _ _ _ j1 j2 j3

lemma summonDeps_mem (pages : List Nat) (lore : List PrinterLore) :
    ∀ p q, q ∈ summonDeps pages lore p → q ∈ pages := by
  intro p q hq
  unfold summonDeps at hq
  rw [List.mem_dedup] at hq
  obtain ⟨r, hr, rfl⟩ := List.mem_map.mp hq
  have hre := (List.mem_filter.mp hr).1
  unfold edgeList at hre
  have h2 := (List.mem_filter.mp hre).2
  simp only [Bool.and_eq_true] at h2
  simpa using h2.2

/-- Claim C10: for pairwise-distinct pages, summon followed by
arrange_pages returns a permutation of the input pages, even when the
rules restricted to those pages contain a cycle: the Kahn phase emits each
page at most once and only pages of the update, and the leftover pages are
appended in original order. -/
theorem day5_arrange_pages_perm (pages : List Nat) (lore : List PrinterLore)
    (hnd : pages.Nodup) : (arrange_pages pages lore).Perm pages := by
  unfold arrange_pages
  dsimp only
  have hready1 : (([] : List Nat) ++ pages.dedup.filter
      fun p => summonCounts pages lore p == 0).Nodup := by
    simpa using (List.nodup_dedup pages).filter _
  have hready2 : ∀ p ∈ ([] : List Nat) ++ pages.dedup.filter
      (fun p => summonCounts pages lore p == 0), p ∈ pages := by
    intro p hp
    simp only [List.nil_append, List.mem_filter, List.mem_dedup] at hp
    exact hp.1
  have hready3 : ∀ p ∈ ([] : List Nat) ++ pages.dedup.filter
      (fun p => summonCounts pages lore p == 0), summonCounts pages lore p ≤ 0 := by
    intro p hp
    simp only [List.nil_append, List.mem_filter, beq_iff_eq] at hp
    omega
  obtain ⟨hseqnd, hseqmem⟩ :=
    kahnLoop_invariant (summonDeps pages lore) pages (summonDeps_mem pages lore)
      (2 * pages.length + 2) (summonCounts pages lore)
      (pages.dedup.filter fun p => summonCounts pages lore p == 0) [] hready1 hready2 hready3
  set seq := kahnLoop (summonDeps pages lore) (2 * pages.length + 2) (summonCounts pages lore)
      (pages.dedup.filter fun p => summonCounts pages lore p == 0) [] with hseq
  rw [List.perm_iff_count]
  intro a
  rw [List.count_append]
  by_cases ha : a ∈ seq
  · rw [List.count_eq_one_of_mem hseqnd ha]
    have hz : (pages.filter fun p => !(seq.contains p)).count a = 0 := by
      rw [List.count_eq_zero]
      intro hmem
      have := (List.mem_filter.mp hmem).2
      simp [ha] at this
    rw [hz, List.count_eq_one_of_mem hnd (hseqmem a ha)]
  · rw [List.count_eq_zero.mpr ha]
    by_cases hp : a ∈ pages
    · rw [List.count_filter (by simp [ha])]
      omega
    · rw [List.count_eq_zero.mpr hp]
      have hz2 : (pages.filter fun p => !(seq.contains p)).count a = 0 := by
        rw [List.count_eq_zero]
        intro hmem
        exact hp (List.mem_filter.mp hmem).1
      omega

end Day5

namespace Day5

/-- Witness for claim C10 on a rule set that is cyclic on the pages. -/
theorem day5_arrange_pages_perm_witness :
    (arrange_pages [1, 2, 3] [⟨1, 2⟩, ⟨2, 1⟩]).Perm [1, 2, 3] :=
  day5_arrange_pages_perm [1, 2, 3] [⟨1, 2⟩, ⟨2, 1⟩] (by decide)

end Day5
